import Mathlib

/-!
Shallow embedding of the `elaru` LRU cache (`src/lib.rs`) and proofs about it.

The Rust code stores entries in a `HashMap<u16, Entry<T>>`; the map is modelled
here as an association list `List (Nat × Entry T)` (first occurrence wins, like
the hash map it stands for; insertion order is unobservable through the API).
Keys are `Nat` — the code never does arithmetic on keys, it only compares and
stores them, so no wrap-around modelling is needed; the single place the
16-bit width matters is the capacity assertion in `new`, kept as the literal
`65535 = u16::MAX`.

Rust panics (`assert!`, `.expect(..)`) are modelled by `Option`: a function
that can panic returns `none` exactly when the Rust original panics.
`remove_lru` cannot panic and is total.
-/

namespace Elaru

/-- An entry in an LRUCache: the stored value plus the two neighbour keys of
the intrusive recency list (`prev` ignored at the head, `next` at the tail). -/
structure Entry (T : Type) where
  val : T
  prev : Nat
  next : Nat
deriving DecidableEq

/-- The LRU cache: key-to-entry table, head/tail keys of the recency list,
and the configured capacity. -/
structure LRUCache (T : Type) where
  entries : List (Nat × Entry T)
  head : Nat
  tail : Nat
  capacity : Nat
deriving DecidableEq

variable {T : Type}

/-- `HashMap::get`: first entry whose key matches. -/
def mapLookup : List (Nat × Entry T) → Nat → Option (Entry T)
  | [], _ => none
  | (k', e) :: rest, k => if k' = k then some e else mapLookup rest k

/-- `HashMap::contains_key`. -/
def mapContains (l : List (Nat × Entry T)) (k : Nat) : Bool :=
  (mapLookup l k).isSome

/-- `HashMap::insert` / the entry API's occupied-or-vacant insert: replace the
first binding of `k` in place, or append a fresh binding. -/
def mapSet : List (Nat × Entry T) → Nat → Entry T → List (Nat × Entry T)
  | [], k, e => [(k, e)]
  | (k', e') :: rest, k, e =>
    if k' = k then (k, e) :: rest else (k', e') :: mapSet rest k e

/-- `HashMap::remove`: the removed entry (if any) and the remaining map. -/
def mapRemove : List (Nat × Entry T) → Nat → Option (Entry T) × List (Nat × Entry T)
  | [], _ => (none, [])
  | (k', e') :: rest, k =>
    if k' = k then (some e', rest)
    else
      let r := mapRemove rest k
      (r.1, (k', e') :: r.2)

/-- `HashMap::get_mut` followed by a field assignment: `none` models the
`.expect("Invalid entry access")` panic on an absent key. -/
def mapModify (l : List (Nat × Entry T)) (k : Nat) (f : Entry T → Entry T) :
    Option (List (Nat × Entry T)) :=
  match mapLookup l k with
  | none => none
  | some e => some (mapSet l k (f e))

/-- `LRUCache::new`: `none` models the `assert!(capacity < u16::max_value() as usize)`
panic ("Capacity overflow"), `u16::max_value() = 65535`. -/
def LRUCache.new (capacity : Nat) : Option (LRUCache T) :=
  if capacity < 65535 then
    some { entries := [], head := 0, tail := 0, capacity := capacity }
  else
    none

/-- `LRUCache::len`. -/
def LRUCache.len (c : LRUCache T) : Nat :=
  c.entries.length

/-- `LRUCache::push_front`: insert an entry (already present in the table) at
the head of the list. -/
def LRUCache.push_front (c : LRUCache T) (i : Nat) : Option (LRUCache T) :=
  if c.entries.length = 1 then
    some { c with tail := i, head := i }
  else
    match mapModify c.entries i (fun e => { e with next := c.head }) with
    | none => none
    | some l =>
      match mapModify l c.head (fun e => { e with prev := i }) with
      | none => none
      | some l' => some { c with entries := l', head := i }

/-- `LRUCache::evict`: unlink an entry from the recency list (the entry stays
in the table with stale links). -/
def LRUCache.evict (c : LRUCache T) (i : Nat) : Option (LRUCache T) :=
  match mapLookup c.entries i with
  | none => none
  | some ev =>
    let step1 : Option (LRUCache T) :=
      if i = c.head then
        some { c with head := ev.next }
      else
        match mapModify c.entries ev.prev (fun e => { e with next := ev.next }) with
        | none => none
        | some l => some { c with entries := l }
    match step1 with
    | none => none
    | some c1 =>
      if i = c1.tail then
        some { c1 with tail := ev.prev }
      else
        match mapModify c1.entries ev.next (fun e => { e with prev := ev.prev }) with
        | none => none
        | some l => some { c1 with entries := l }

/-- `LRUCache::touch_index`: move an existing entry to the head. -/
def LRUCache.touch_index (c : LRUCache T) (idx : Nat) : Option (LRUCache T) :=
  if idx = c.head then
    some c
  else
    match c.evict idx with
    | none => none
    | some c1 => c1.push_front idx

/-- `LRUCache::get`: touch on hit, then read.  The pair is the cache after the
call and the returned value. -/
def LRUCache.get (c : LRUCache T) (key : Nat) : Option (LRUCache T × Option T) :=
  match (if mapContains c.entries key then c.touch_index key else some c) with
  | none => none
  | some c1 => some (c1, (mapLookup c1.entries key).map (fun e => e.val))

/-- `LRUCache::get_mut`: identical cache effect and (dereferenced) result as
`get`; the mutable reference itself has no effect modelled here. -/
def LRUCache.get_mut (c : LRUCache T) (key : Nat) : Option (LRUCache T × Option T) :=
  match (if mapContains c.entries key then c.touch_index key else some c) with
  | none => none
  | some c1 => some (c1, (mapLookup c1.entries key).map (fun e => e.val))

/-- `LRUCache::remove_lru`: remove the tail entry, if any.  Never panics. -/
def LRUCache.remove_lru (c : LRUCache T) : Option (Nat × T) × LRUCache T :=
  match mapRemove c.entries c.tail with
  | (none, _) => (none, c)
  | (some oldTail, rest) =>
    (some (c.tail, oldTail.val), { c with entries := rest, tail := oldTail.prev })

/-- `LRUCache::insert` (default `bounded` configuration): when the table is at
capacity, first `remove_lru().expect(..)`; then insert or overwrite; then
`push_front`.  Returns the updated cache and the prior value, `none` for a
panic. -/
def LRUCache.insert (c : LRUCache T) (key : Nat) (val : T) :
    Option (LRUCache T × Option T) :=
  let afterEvict : Option (LRUCache T) :=
    if c.entries.length = c.capacity then
      match c.remove_lru with
      | (some _, c') => some c'
      | (none, _) => none
    else
      some c
  match afterEvict with
  | none => none
  | some c1 =>
    let inserted : List (Nat × Entry T) × Option T :=
      match mapLookup c1.entries key with
      | some e => (mapSet c1.entries key ⟨val, e.prev, e.next⟩, some e.val)
      | none => (mapSet c1.entries key ⟨val, 0, 0⟩, none)
    match LRUCache.push_front { c1 with entries := inserted.1 } key with
    | none => none
    | some c2 => some (c2, inserted.2)

/-- `LRUCache::clear`. -/
def LRUCache.clear (c : LRUCache T) : LRUCache T :=
  { c with entries := [] }

/-- The state of an `Iter` cursor: current position and done flag. -/
structure Iter where
  pos : Nat
  done : Bool
deriving DecidableEq

/-- `LRUCache::iter`: a cursor starting at the head, immediately done when the
cache is empty. -/
def LRUCache.iter (c : LRUCache T) : Iter :=
  { pos := c.head, done := c.entries.isEmpty }

/-- One `Iterator::next` step of `Iter`: outer `none` models the
`.expect("Invalid entry access")` panic; `some none` is an exhausted cursor;
otherwise the yielded pair and the advanced cursor. -/
def iterNext (c : LRUCache T) (s : Iter) : Option (Option ((Nat × T) × Iter)) :=
  if s.done then
    some none
  else
    match mapLookup c.entries s.pos with
    | none => none
    | some e =>
      some (some ((s.pos, e.val), { pos := e.next, done := s.pos = c.tail }))

/-- Result of running the iterator with a given amount of fuel. -/
inductive IterRun (T : Type) where
  | aborted : IterRun T
  | fuelOut : List (Nat × T) → Iter → IterRun T
  | finished : List (Nat × T) → IterRun T
deriving DecidableEq

/-- Run `Iter::next` up to `fuel` times, collecting the yielded pairs. -/
def runIter (c : LRUCache T) : Iter → Nat → IterRun T
  | s, 0 => .fuelOut [] s
  | s, n + 1 =>
    match iterNext c s with
    | none => .aborted
    | some none => .finished []
    | some (some (kv, s')) =>
      match runIter c s' n with
      | .aborted => .aborted
      | .fuelOut l s'' => .fuelOut (kv :: l) s''
      | .finished l => .finished (kv :: l)

/-- The keys visited by following `next` from `k`, stopping after the tail, at
a missing entry, or when the fuel runs out.  This is the spec's "set of keys
reachable by following `next_key` from `head_key` to `tail_key`". -/
def followNext (c : LRUCache T) : Nat → Nat → List Nat
  | _, 0 => []
  | k, n + 1 =>
    k ::
      (if k = c.tail then []
       else
         match mapLookup c.entries k with
         | none => []
         | some e => followNext c e.next n)

/-- Call `remove_lru` repeatedly (up to `fuel` times) until it returns `none`,
collecting the evicted pairs in call order. -/
def drain (c : LRUCache T) : Nat → List (Nat × T)
  | 0 => []
  | n + 1 =>
    match c.remove_lru with
    | (some kv, c') => kv :: drain c' n
    | (none, _) => []

/-- The value currently stored under a key. -/
def valAt (c : LRUCache T) (k : Nat) : Option T :=
  (mapLookup c.entries k).map (fun e => e.val)

/-- The key component of an entry's `next` link, if the key is present. -/
def nextOf (c : LRUCache T) (k : Nat) : Option Nat :=
  (mapLookup c.entries k).map (fun e => e.next)

/-- The key component of an entry's `prev` link, if the key is present. -/
def prevOf (c : LRUCache T) (k : Nat) : Option Nat :=
  (mapLookup c.entries k).map (fun e => e.prev)

/-- The keys of the table, in table order. -/
def keysOf (c : LRUCache T) : List Nat :=
  c.entries.map Prod.fst

/-- Keys `a` and `b` are adjacent in the recency list:
`table[a].next == b` and `table[b].prev == a`. -/
def linkedAt (c : LRUCache T) (a b : Nat) : Prop :=
  nextOf c a = some b ∧ prevOf c b = some a

instance (c : LRUCache T) : DecidableRel (linkedAt c) := fun a b =>
  decidable_of_iff (nextOf c a = some b ∧ prevOf c b = some a) Iff.rfl

/-- The recency-list invariant of the spec, with `order` the head-to-tail key
sequence: `order` enumerates the table's keys exactly once, adjacent keys are
doubly linked, and `head`/`tail` are its first and last elements. -/
def Consistent (c : LRUCache T) (order : List Nat) : Prop :=
  (keysOf c).Perm order ∧ (keysOf c).Nodup ∧
    List.Chain' (linkedAt c) order ∧
    (order = [] ∨ (order.head? = some c.head ∧ order.getLast? = some c.tail))

/-- A decidability witness for chains of `linkedAt` that reduces by structural
recursion (so that `decide` can evaluate it on concrete caches). -/
def decChainLinked (c : LRUCache T) : ∀ l : List Nat, Decidable (List.Chain' (linkedAt c) l)
  | [] => isTrue List.chain'_nil
  | [a] => isTrue (List.chain'_singleton a)
  | a :: b :: t =>
    match decChainLinked c (b :: t) with
    | isTrue h =>
      if h2 : nextOf c a = some b ∧ prevOf c b = some a then
        isTrue (List.chain'_cons.2 ⟨h2, h⟩)
      else
        isFalse (fun hc => h2 (List.chain'_cons.1 hc).1)
    | isFalse h =>
      isFalse (fun hc => h (List.chain'_cons.1 hc).2)

instance (c : LRUCache T) (l : List Nat) : Decidable (List.Chain' (linkedAt c) l) :=
  decChainLinked c l

instance (c : LRUCache T) (order : List Nat) : Decidable (Consistent c order) :=
  decidable_of_iff
    ((keysOf c).Perm order ∧ (keysOf c).Nodup ∧
      List.Chain' (linkedAt c) order ∧
      (order = [] ∨ (order.head? = some c.head ∧ order.getLast? = some c.tail)))
    Iff.rfl

/-- The cache obtained through the public API alone by
`new(4); insert(1,10); insert(2,20); insert(2,21)` — the third call re-inserts
the key that is currently the head. -/
def buildDup : Option (LRUCache Nat) :=
  (LRUCache.new 4).bind fun c0 =>
    (c0.insert 1 10).bind fun p1 =>
      (p1.1.insert 2 20).bind fun p2 =>
        (p2.1.insert 2 21).map Prod.fst

/-- The value of `buildDup`: its recency list is corrupted — entry `2` links
to itself (`next = prev = 2`) while `tail = 1` is unreachable from the head. -/
def dupCache : LRUCache Nat :=
  { entries := [(1, ⟨10, 2, 0⟩), (2, ⟨21, 2, 2⟩)], head := 2, tail := 1, capacity := 4 }

/-- The cache obtained through the public API alone by
`new(2); insert(1,10); insert(2,20)`: a full, well-formed cache of capacity 2
with recency order `[2, 1]`. -/
def buildFull2 : Option (LRUCache Nat) :=
  (LRUCache.new 2).bind fun c0 =>
    (c0.insert 1 10).bind fun p1 =>
      (p1.1.insert 2 20).map Prod.fst

/-- The value of `buildFull2`. -/
def full2 : LRUCache Nat :=
  { entries := [(1, ⟨10, 2, 0⟩), (2, ⟨20, 0, 1⟩)], head := 2, tail := 1, capacity := 2 }

/-- A small well-formed cache of capacity 5 with recency order `[2, 1]`,
used as a concrete instance in witnesses. -/
def cacheW : LRUCache Nat :=
  { entries := [(1, ⟨10, 2, 0⟩), (2, ⟨20, 0, 1⟩)], head := 2, tail := 1, capacity := 5 }

/-- A full well-formed cache of capacity 1 holding only key `3`. -/
def cap1full : LRUCache Nat :=
  { entries := [(3, ⟨30, 0, 0⟩)], head := 3, tail := 3, capacity := 1 }

/-- The (only reachable) cache of capacity 0: what `new(0)` returns. -/
def emptyCap0 : LRUCache Nat :=
  { entries := [], head := 0, tail := 0, capacity := 0 }

/-- An empty cache of capacity 4: what `new(4)` returns. -/
def emptyCache4 : LRUCache Nat :=
  { entries := [], head := 0, tail := 0, capacity := 4 }

/-! ### Association-list map lemmas -/

theorem mapLookup_mapSet (l : List (Nat × Entry T)) (k k' : Nat) (e : Entry T) :
    mapLookup (mapSet l k e) k' = if k = k' then some e else mapLookup l k' := by
  induction l with
  | nil =>
    by_cases h : k = k' <;> simp [mapSet, mapLookup, h]
  | cons p rest ih =>
    obtain ⟨a, b⟩ := p
    by_cases hak : a = k
    · subst hak
      by_cases h : a = k' <;> simp [mapSet, mapLookup, h]
    · by_cases h2 : a = k'
      · subst h2
        have : ¬ k = a := fun hh => hak hh.symm
        simp [mapSet, hak, mapLookup, this]
      · simp [mapSet, hak, mapLookup, h2, ih]

theorem mapLookup_eq_none_iff (l : List (Nat × Entry T)) (k : Nat) :
    mapLookup l k = none ↔ k ∉ l.map Prod.fst := by
  induction l with
  | nil => simp [mapLookup]
  | cons p rest ih =>
    obtain ⟨a, b⟩ := p
    by_cases h : a = k
    · subst h; simp [mapLookup]
    · simp only [mapLookup, if_neg h, ih, List.map_cons, List.mem_cons, not_or]
      constructor
      · intro hh
        exact ⟨fun h2 => h h2.symm, hh⟩
      · intro hh
        exact hh.2

theorem mapLookup_isSome_iff (l : List (Nat × Entry T)) (k : Nat) :
    (mapLookup l k).isSome = true ↔ k ∈ l.map Prod.fst := by
  rw [Option.isSome_iff_ne_none]
  constructor
  · intro h
    by_contra hmem
    exact h ((mapLookup_eq_none_iff l k).2 hmem)
  · intro h hnone
    exact ((mapLookup_eq_none_iff l k).1 hnone) h

theorem mapContains_iff (l : List (Nat × Entry T)) (k : Nat) :
    mapContains l k = true ↔ k ∈ l.map Prod.fst :=
  mapLookup_isSome_iff l k

theorem mapContains_eq_false_iff (l : List (Nat × Entry T)) (k : Nat) :
    mapContains l k = false ↔ k ∉ l.map Prod.fst := by
  constructor
  · intro h hmem
    have := (mapContains_iff l k).2 hmem
    rw [this] at h
    cases h
  · intro h
    cases hc : mapContains l k
    · rfl
    · exact absurd ((mapContains_iff l k).1 hc) h

theorem mapLookup_mem_of_some {l : List (Nat × Entry T)} {k : Nat} {e : Entry T}
    (h : mapLookup l k = some e) : k ∈ l.map Prod.fst := by
  have : (mapLookup l k).isSome = true := by rw [h]; rfl
  exact (mapLookup_isSome_iff l k).1 this

theorem keys_mapSet_mem {l : List (Nat × Entry T)} {k : Nat} (e : Entry T)
    (h : k ∈ l.map Prod.fst) : (mapSet l k e).map Prod.fst = l.map Prod.fst := by
  induction l with
  | nil => simp at h
  | cons p rest ih =>
    obtain ⟨a, b⟩ := p
    by_cases hak : a = k
    · subst hak; simp [mapSet]
    · have hmem : k ∈ rest.map Prod.fst := by
        simp at h
        rcases h with h | h
        · exact absurd h.symm hak
        · simpa using h
      simp [mapSet, hak, ih hmem]

theorem keys_mapSet_not_mem {l : List (Nat × Entry T)} {k : Nat} (e : Entry T)
    (h : k ∉ l.map Prod.fst) : (mapSet l k e).map Prod.fst = l.map Prod.fst ++ [k] := by
  induction l with
  | nil => simp [mapSet]
  | cons p rest ih =>
    obtain ⟨a, b⟩ := p
    simp at h
    have hak : ¬ a = k := fun hh => h.1 hh.symm
    simp [mapSet, hak, ih (by simpa using h.2)]

theorem length_mapSet_mem {l : List (Nat × Entry T)} {k : Nat} (e : Entry T)
    (h : k ∈ l.map Prod.fst) : (mapSet l k e).length = l.length := by
  have := keys_mapSet_mem e h
  have h1 : (mapSet l k e).length = ((mapSet l k e).map Prod.fst).length := by simp
  have h2 : l.length = (l.map Prod.fst).length := by simp
  rw [h1, this, ← h2]

theorem length_mapSet_not_mem {l : List (Nat × Entry T)} {k : Nat} (e : Entry T)
    (h : k ∉ l.map Prod.fst) : (mapSet l k e).length = l.length + 1 := by
  have := keys_mapSet_not_mem e h
  have h1 : (mapSet l k e).length = ((mapSet l k e).map Prod.fst).length := by simp
  rw [h1, this]
  simp

theorem mapRemove_fst (l : List (Nat × Entry T)) (k : Nat) :
    (mapRemove l k).1 = mapLookup l k := by
  induction l with
  | nil => simp [mapRemove, mapLookup]
  | cons p rest ih =>
    obtain ⟨a, b⟩ := p
    by_cases h : a = k <;> simp [mapRemove, mapLookup, h, ih]

theorem keys_mapRemove (l : List (Nat × Entry T)) (k : Nat) :
    (mapRemove l k).2.map Prod.fst = (l.map Prod.fst).erase k := by
  induction l with
  | nil => simp [mapRemove]
  | cons p rest ih =>
    obtain ⟨a, b⟩ := p
    by_cases h : a = k
    · subst h; simp [mapRemove, List.erase_cons_head]
    · simp [mapRemove, h, ih, List.erase_cons_tail, fun hh => h (by simpa using hh)]

theorem mapLookup_mapRemove_ne (l : List (Nat × Entry T)) {k k' : Nat}
    (h : k' ≠ k) : mapLookup (mapRemove l k).2 k' = mapLookup l k' := by
  induction l with
  | nil => simp [mapRemove]
  | cons p rest ih =>
    obtain ⟨a, b⟩ := p
    by_cases hak : a = k
    · subst hak
      have hne : ¬ a = k' := fun hh => h hh.symm
      simp [mapRemove, mapLookup, hne]
    · simp [mapRemove, mapLookup, hak, ih]

theorem length_mapRemove_mem {l : List (Nat × Entry T)} {k : Nat}
    (h : k ∈ l.map Prod.fst) : (mapRemove l k).2.length + 1 = l.length := by
  have hk := keys_mapRemove l k
  have h1 : (mapRemove l k).2.length = ((mapRemove l k).2.map Prod.fst).length := by simp
  have h2 : l.length = (l.map Prod.fst).length := by simp
  rw [h1, hk, h2]
  exact List.length_erase_add_one h

theorem mapModify_eq_some {l : List (Nat × Entry T)} {k : Nat} {e : Entry T}
    (f : Entry T → Entry T) (h : mapLookup l k = some e) :
    mapModify l k f = some (mapSet l k (f e)) := by
  simp [mapModify, h]

theorem mapModify_eq_none {l : List (Nat × Entry T)} {k : Nat}
    (f : Entry T → Entry T) (h : mapLookup l k = none) :
    mapModify l k f = none := by
  simp [mapModify, h]

theorem mapLookup_eq_none_of_contains_false {l : List (Nat × Entry T)} {k : Nat}
    (h : mapContains l k = false) : mapLookup l k = none := by
  cases hx : mapLookup l k with
  | none => rfl
  | some e =>
    exfalso
    have ht : mapContains l k = true := by
      unfold mapContains
      rw [hx]
      rfl
    rw [ht] at h
    cases h

/-! ### Helper facts about the concrete caches -/

theorem buildDup_eq : buildDup = some dupCache := rfl

theorem buildFull2_eq : buildFull2 = some full2 := rfl

theorem dup_iter_loop (n : Nat) :
    runIter dupCache ⟨2, false⟩ n =
      .fuelOut (List.replicate n ((2, 21) : Nat × Nat)) ⟨2, false⟩ := by
  induction n with
  | zero => rfl
  | succ n ih =>
    have hnext : iterNext dupCache ⟨2, false⟩ =
        some (some (((2, 21) : Nat × Nat), ⟨2, false⟩)) := rfl
    simp only [runIter, hnext, ih, List.replicate_succ]

theorem dup_iter_never_finishes (n : Nat) (l : List (Nat × Nat)) :
    runIter dupCache dupCache.iter n ≠ .finished l := by
  have hiter : dupCache.iter = ⟨2, false⟩ := rfl
  rw [hiter, dup_iter_loop n]
  intro h
  cases h

theorem dup_follow (n : Nat) : followNext dupCache 2 n = List.replicate n 2 := by
  induction n with
  | zero => rfl
  | succ n ih =>
    have hstep : followNext dupCache 2 (n + 1) = 2 :: followNext dupCache 2 n := rfl
    rw [hstep, ih, List.replicate_succ]

theorem dup_drain (n : Nat) : drain dupCache (n + 3) = [(1, 10), (2, 21)] := by
  have h1 : drain dupCache (n + 3) =
      (1, 10) :: drain ⟨[(2, ⟨21, 2, 2⟩)], 2, 2, 4⟩ (n + 2) := rfl
  have h2 : drain (⟨[(2, ⟨21, 2, 2⟩)], 2, 2, 4⟩ : LRUCache Nat) (n + 2) =
      (2, 21) :: drain ⟨[], 2, 2, 4⟩ (n + 1) := rfl
  have h3 : drain (⟨[], 2, 2, 4⟩ : LRUCache Nat) (n + 1) = [] := rfl
  rw [h1, h2, h3]

/-! ### Framing: re-linking untouched keys preserves the chain -/

theorem chain'_linkedAt_congr {c c' : LRUCache T} :
    ∀ (order : List Nat),
      (∀ a ∈ order.dropLast, nextOf c' a = nextOf c a) →
      (∀ b ∈ order.drop 1, prevOf c' b = prevOf c b) →
      List.Chain' (linkedAt c) order → List.Chain' (linkedAt c') order := by
  intro order
  induction order with
  | nil =>
    intro _ _ _
    simp
  | cons a rest ih =>
    intro hnext hprev h
    cases rest with
    | nil => simp
    | cons b t =>
      rw [List.chain'_cons] at h ⊢
      obtain ⟨⟨hab1, hab2⟩, hrest⟩ := h
      have hadrop : a ∈ (a :: b :: t).dropLast := by simp
      have hbdrop : b ∈ (a :: b :: t).drop 1 := by simp
      refine ⟨⟨?_, ?_⟩, ?_⟩
      · rw [hnext a hadrop]
        exact hab1
      · rw [hprev b hbdrop]
        exact hab2
      · apply ih
        · intro x hx
          apply hnext
          have hdl : (a :: b :: t).dropLast = a :: (b :: t).dropLast := by simp
          rw [hdl]
          exact List.mem_cons_of_mem a hx
        · intro x hx
          apply hprev
          have hdr : (a :: b :: t).drop 1 = b :: t := rfl
          rw [hdr]
          exact List.mem_cons_of_mem b (by simpa using hx)
        · exact hrest

/-! ### Miss cases never mutate and never abort -/

theorem get_miss {c : LRUCache T} {k : Nat} (h : mapContains c.entries k = false) :
    c.get k = some (c, none) := by
  have hl := mapLookup_eq_none_of_contains_false h
  simp [LRUCache.get, h, hl]

theorem get_mut_miss {c : LRUCache T} {k : Nat} (h : mapContains c.entries k = false) :
    c.get_mut k = some (c, none) := by
  have hl := mapLookup_eq_none_of_contains_false h
  simp [LRUCache.get_mut, h, hl]

theorem remove_lru_empty {c : LRUCache T} (h : c.entries = []) :
    c.remove_lru = (none, c) := by
  unfold LRUCache.remove_lru
  rw [h]
  rfl

/-! ### Operations on consistent caches -/

theorem consistent_nonempty_entries {c : LRUCache T} {order : List Nat}
    (hc : Consistent c order) (hne : order ≠ []) : c.entries ≠ [] := by
  obtain ⟨hperm, -, -, -⟩ := hc
  intro h
  apply hne
  have : keysOf c = [] := by simp [keysOf, h]
  rw [this] at hperm
  exact hperm.symm.eq_nil

theorem consistent_order_nodup {c : LRUCache T} {order : List Nat}
    (hc : Consistent c order) : order.Nodup := by
  obtain ⟨hperm, hnd, -, -⟩ := hc
  exact hperm.nodup_iff.1 hnd

theorem consistent_length {c : LRUCache T} {order : List Nat}
    (hc : Consistent c order) : c.entries.length = order.length := by
  obtain ⟨hperm, -, -, -⟩ := hc
  have h1 : (keysOf c).length = order.length := hperm.length_eq
  simpa [keysOf] using h1

theorem consistent_mem_lookup {c : LRUCache T} {order : List Nat}
    (hc : Consistent c order) {k : Nat} (hk : k ∈ order) :
    ∃ e, mapLookup c.entries k = some e := by
  obtain ⟨hperm, -, -, -⟩ := hc
  have hmem : k ∈ keysOf c := hperm.mem_iff.2 hk
  have hsome : (mapLookup c.entries k).isSome = true :=
    (mapLookup_isSome_iff c.entries k).2 hmem
  exact Option.isSome_iff_exists.1 hsome

theorem remove_lru_consistent {c : LRUCache T} {order : List Nat}
    (hc : Consistent c order) (hne : order ≠ []) :
    ∃ (t : Nat) (e : Entry T),
      order.getLast? = some t ∧
      t = c.tail ∧
      mapLookup c.entries t = some e ∧
      c.remove_lru = (some (t, e.val),
        { c with entries := (mapRemove c.entries t).2, tail := e.prev }) ∧
      Consistent { c with entries := (mapRemove c.entries t).2, tail := e.prev }
        order.dropLast ∧
      (mapRemove c.entries t).2.length + 1 = c.entries.length ∧
      (∀ j, j ≠ t → mapLookup (mapRemove c.entries t).2 j = mapLookup c.entries j) ∧
      mapContains (mapRemove c.entries t).2 t = false := by
  obtain ⟨hperm, hnd, hchain, hht⟩ := hc
  rcases hht with h | hht
  · exact absurd h hne
  obtain ⟨hhead, hlast⟩ := hht
  refine ⟨c.tail, ?_⟩
  have hmemlast : c.tail ∈ order.getLast? := by
    rw [hlast]
    rfl
  have hdecomp : order.dropLast ++ [c.tail] = order :=
    List.dropLast_append_getLast? c.tail hmemlast
  have hordernd : order.Nodup := hperm.nodup_iff.1 hnd
  have htmem : c.tail ∈ order := by
    rw [← hdecomp]
    simp
  have htkeys : c.tail ∈ keysOf c := hperm.mem_iff.2 htmem
  have hsome : (mapLookup c.entries c.tail).isSome = true :=
    (mapLookup_isSome_iff c.entries c.tail).2 htkeys
  obtain ⟨e, he⟩ := Option.isSome_iff_exists.1 hsome
  have htnotdl : c.tail ∉ order.dropLast := by
    intro hmem
    have : ¬ order.Nodup := by
      rw [← hdecomp]
      simp [List.nodup_append, hmem]
    exact this hordernd
  have herase : order.erase c.tail = order.dropLast := by
    conv_lhs => rw [← hdecomp]
    rw [List.erase_append_right _ (by simpa using htnotdl), List.erase_cons_head]
    simp
  have hkeys' : (mapRemove c.entries c.tail).2.map Prod.fst = (keysOf c).erase c.tail :=
    keys_mapRemove c.entries c.tail
  refine ⟨e, hlast, rfl, he, ?_, ?_, ?_, ?_, ?_⟩
  · -- the remove_lru equation
    have hpair : mapRemove c.entries c.tail = (some e, (mapRemove c.entries c.tail).2) := by
      have h1 : (mapRemove c.entries c.tail).1 = some e := by
        rw [mapRemove_fst]
        exact he
      exact Prod.ext h1 rfl
    unfold LRUCache.remove_lru
    rw [hpair]
  · -- consistency of the shrunk cache
    refine ⟨?_, ?_, ?_, ?_⟩
    · -- perm
      show ((mapRemove c.entries c.tail).2.map Prod.fst).Perm order.dropLast
      rw [hkeys', ← herase]
      exact hperm.erase c.tail
    · -- nodup
      show ((mapRemove c.entries c.tail).2.map Prod.fst).Nodup
      rw [hkeys']
      exact hnd.erase c.tail
    · -- chain
      have hchain' : List.Chain' (linkedAt c) order.dropLast := by
        conv at hchain => rw [← hdecomp]
        exact (List.chain'_append.1 hchain).1
      apply chain'_linkedAt_congr order.dropLast ?_ ?_ hchain'
      · intro a ha
        have hane : a ≠ c.tail := by
          intro hh
          exact htnotdl (hh ▸ List.dropLast_subset _ ha)
        simp only [nextOf]
        rw [mapLookup_mapRemove_ne c.entries hane]
      · intro b hb
        have hbne : b ≠ c.tail := by
          intro hh
          apply htnotdl
          rw [← hh]
          exact List.drop_subset 1 _ hb
        simp only [prevOf]
        rw [mapLookup_mapRemove_ne c.entries hbne]
    · -- head and tail of the shrunk order
      cases hdl : order.dropLast with
      | nil => exact Or.inl rfl
      | cons p rest =>
        refine Or.inr ⟨?_, ?_⟩
        · have h1 : order.head? = (order.dropLast ++ [c.tail]).head? := by rw [hdecomp]
          rw [List.head?_append_of_ne_nil _ (by rw [hdl]; exact List.cons_ne_nil p rest)] at h1
          rw [hdl] at h1
          rw [← h1]
          exact hhead
        · -- junction of the chain gives prevOf c c.tail = getLast of dropLast
          have hchain2 : List.Chain' (linkedAt c) (order.dropLast ++ [c.tail]) := by
            rw [hdecomp]
            exact hchain
          have hjun := (List.chain'_append.1 hchain2).2.2
          obtain ⟨q, hq⟩ : ∃ q, order.dropLast.getLast? = some q := by
            rw [hdl]
            exact ⟨(p :: rest).getLast (List.cons_ne_nil p rest),
              List.getLast?_eq_getLast _ _⟩
          have hlink : linkedAt c q c.tail := by
            apply hjun q ?_ c.tail ?_
            · rw [hq]
              rfl
            · rfl
          have hprev : e.prev = q := by
            have h2 : prevOf c c.tail = some q := hlink.2
            simp only [prevOf, he, Option.map_some'] at h2
            exact Option.some_injective _ h2
          rw [hdl] at hq
          rw [hq, hprev]
  · -- length
    exact length_mapRemove_mem htkeys
  · -- untouched lookups
    intro j hj
    exact mapLookup_mapRemove_ne c.entries hj
  · -- the tail is gone
    rw [mapContains_eq_false_iff, hkeys']
    exact List.Nodup.not_mem_erase hnd

theorem push_front_consistent {c : LRUCache T} {order : List Nat} {k : Nat}
    (hkeys : (keysOf c).Perm (k :: order))
    (hnd : (keysOf c).Nodup)
    (hchain : List.Chain' (linkedAt c) order)
    (hht : order = [] ∨ (order.head? = some c.head ∧ order.getLast? = some c.tail)) :
    ∃ c', c.push_front k = some c' ∧ Consistent c' (k :: order) ∧
      c'.capacity = c.capacity ∧ c'.entries.length = c.entries.length ∧
      c'.head = k ∧
      (∀ j, valAt c' j = valAt c j) := by
  have hlen : c.entries.length = order.length + 1 := by
    have h1 : (keysOf c).length = (k :: order).length := hkeys.length_eq
    simpa [keysOf] using h1
  have hconsnd : (k :: order).Nodup := hkeys.nodup_iff.1 hnd
  have hknotin : k ∉ order := (List.nodup_cons.1 hconsnd).1
  have hkmem : k ∈ keysOf c := hkeys.mem_iff.2 (List.mem_cons_self k order)
  obtain ⟨ek, hek⟩ := Option.isSome_iff_exists.1 ((mapLookup_isSome_iff _ _).2 hkmem)
  cases order with
  | nil =>
    have hlen1 : c.entries.length = 1 := by simpa using hlen
    refine ⟨{ c with tail := k, head := k }, ?_, ?_, rfl, rfl, rfl, fun j => rfl⟩
    · unfold LRUCache.push_front
      rw [if_pos hlen1]
    · exact ⟨hkeys, hnd, List.chain'_singleton k, Or.inr ⟨rfl, rfl⟩⟩
  | cons h rest =>
    have hord := hht.resolve_left (List.cons_ne_nil h rest)
    have hh : h = c.head := by
      have h1 := hord.1
      simp only [List.head?_cons, Option.some.injEq] at h1
      exact h1
    have hlen2 : ¬ c.entries.length = 1 := by
      rw [hlen]
      simp
    have hhmem : h ∈ keysOf c := hkeys.mem_iff.2 (List.mem_cons_of_mem k (List.mem_cons_self h rest))
    have hkh : k ≠ h := by
      intro hkh
      exact hknotin (hkh ▸ List.mem_cons_self h rest)
    obtain ⟨eh, heh⟩ := Option.isSome_iff_exists.1 ((mapLookup_isSome_iff _ _).2 hhmem)
    -- first link repair: entry k points at the old head
    have hmod1 : mapModify c.entries k (fun e => { e with next := c.head }) =
        some (mapSet c.entries k { ek with next := c.head }) :=
      mapModify_eq_some _ hek
    set l1 : List (Nat × Entry T) := mapSet c.entries k { ek with next := c.head } with hl1
    have hlook1 : ∀ j, mapLookup l1 j =
        if k = j then some { ek with next := c.head } else mapLookup c.entries j :=
      fun j => mapLookup_mapSet c.entries k j _
    have hlookh : mapLookup l1 h = some eh := by
      rw [hlook1 h, if_neg hkh, heh]
    -- second link repair: the old head points back at k
    have hmod2 : mapModify l1 c.head (fun e => { e with prev := k }) =
        some (mapSet l1 c.head { eh with prev := k }) := by
      apply mapModify_eq_some
      rw [← hh]
      exact hlookh
    set l2 : List (Nat × Entry T) := mapSet l1 c.head { eh with prev := k } with hl2
    have hlook2 : ∀ j, mapLookup l2 j =
        if c.head = j then some { eh with prev := k } else mapLookup l1 j :=
      fun j => mapLookup_mapSet l1 c.head j _
    have hkeys1 : l1.map Prod.fst = keysOf c := keys_mapSet_mem _ hkmem
    have hkeys2 : l2.map Prod.fst = keysOf c := by
      have hhm : c.head ∈ l1.map Prod.fst := by
        rw [hkeys1, ← hh]
        exact hhmem
      rw [keys_mapSet_mem _ hhm, hkeys1]
    refine ⟨{ c with entries := l2, head := k }, ?_, ?_, rfl, ?_, rfl, ?_⟩
    · -- the push_front equation
      unfold LRUCache.push_front
      rw [if_neg hlen2]
      simp only [hmod1, hmod2]
    · -- consistency
      refine ⟨?_, ?_, ?_, ?_⟩
      · show (l2.map Prod.fst).Perm (k :: h :: rest)
        rw [hkeys2]
        exact hkeys
      · show (l2.map Prod.fst).Nodup
        rw [hkeys2]
        exact hnd
      · -- chain
        rw [List.chain'_cons]
        constructor
        · constructor
          · show (mapLookup l2 k).map (fun e => e.next) = some h
            rw [hlook2 k, if_neg (fun hx => hkh (hx.symm.trans hh.symm)), hlook1 k, if_pos rfl]
            simp [hh]
          · show (mapLookup l2 h).map (fun e => e.prev) = some k
            rw [hlook2 h, if_pos hh.symm]
            simp
        · -- the old chain survives
          apply chain'_linkedAt_congr (h :: rest) ?_ ?_ hchain
          · intro a ha
            have hak : ¬ k = a := by
              intro hx
              exact hknotin (hx ▸ List.dropLast_subset _ ha)
            by_cases hah : a = h
            · subst hah
              simp only [nextOf]
              rw [hlook2 a, if_pos hh.symm, heh]
              simp
            · have hha : ¬ c.head = a := by
                rw [← hh]
                intro hx
                exact hah hx.symm
              simp only [nextOf]
              rw [hlook2 a, if_neg hha, hlook1 a, if_neg hak]
          · intro b hb
            have hbrest : b ∈ rest := by simpa using hb
            have hbk : ¬ k = b := by
              intro hx
              exact hknotin (hx ▸ List.mem_cons_of_mem h hbrest)
            have hbh : ¬ c.head = b := by
              rw [← hh]
              intro hx
              have : ¬ (h :: rest).Nodup → False := fun hcon => hcon (List.nodup_cons.1 hconsnd).2
              have hnodup2 : (h :: rest).Nodup := (List.nodup_cons.1 hconsnd).2
              exact (List.nodup_cons.1 hnodup2).1 (hx ▸ hbrest)
            simp only [prevOf]
            rw [hlook2 b, if_neg hbh, hlook1 b, if_neg hbk]
      · -- head and tail
        refine Or.inr ⟨rfl, ?_⟩
        rw [List.getLast?_cons_cons]
        exact hord.2
    · -- length
      show l2.length = c.entries.length
      have e1 : l2.length = (l2.map Prod.fst).length := by simp
      have e2 : c.entries.length = (keysOf c).length := by simp [keysOf]
      rw [e1, hkeys2, ← e2]
    · -- values untouched
      intro j
      show (mapLookup l2 j).map (fun e => e.val) = (mapLookup c.entries j).map (fun e => e.val)
      rw [hlook2 j, hlook1 j]
      by_cases hhj : c.head = j
      · rw [if_pos hhj]
        rw [← hh] at hhj
        subst hhj
        rw [heh]
        rfl
      · rw [if_neg hhj]
        by_cases hkj : k = j
        · rw [if_pos hkj]
          subst hkj
          rw [hek]
          rfl
        · rw [if_neg hkj]

theorem evict_unlinks {c : LRUCache T} {order : List Nat} {k : Nat}
    (hc : Consistent c order) (hk : k ∈ order) (hkh : k ≠ c.head) :
    ∃ c', c.evict k = some c' ∧
      keysOf c' = keysOf c ∧ c'.capacity = c.capacity ∧ c'.head = c.head ∧
      c'.entries.length = c.entries.length ∧
      (∀ j, valAt c' j = valAt c j) ∧
      List.Chain' (linkedAt c') (order.erase k) ∧
      (order.erase k).head? = some c'.head ∧
      (order.erase k).getLast? = some c'.tail := by
  obtain ⟨hperm, hnd, hchain, hht⟩ := hc
  have hne : order ≠ [] := List.ne_nil_of_mem hk
  rcases hht with h | hht
  · exact absurd h hne
  obtain ⟨hhead, hlast⟩ := hht
  cases order with
  | nil => cases hk
  | cons h rest =>
    have hh : h = c.head := by
      have h1 := hhead
      simp only [List.head?_cons, Option.some.injEq] at h1
      exact h1
    have hkrest : k ∈ rest := by
      rcases List.mem_cons.1 hk with h1 | h1
      · exact absurd (h1.trans hh) hkh
      · exact h1
    obtain ⟨l1, l2, hrest⟩ := List.append_of_mem hkrest
    subst hrest
    have hordnd : (h :: (l1 ++ k :: l2)).Nodup := hperm.nodup_iff.1 hnd
    have hform : h :: (l1 ++ k :: l2) = (h :: l1) ++ (k :: l2) := rfl
    -- nodup consequences
    have hnd2 : ((h :: l1) ++ (k :: l2)).Nodup := by rw [← hform]; exact hordnd
    have hdisj := (List.nodup_append.1 hnd2).2.2
    have hndleft : (h :: l1).Nodup := (List.nodup_append.1 hnd2).1
    have hndright : (k :: l2).Nodup := (List.nodup_append.1 hnd2).2.1
    have hknotl1 : k ∉ h :: l1 := fun hmem => hdisj hmem (List.mem_cons_self k l2)
    have hknotl2 : k ∉ l2 := (List.nodup_cons.1 hndright).1
    -- the chain splits at k
    have hchain2 : List.Chain' (linkedAt c) ((h :: l1) ++ (k :: l2)) := by
      rw [← hform]
      exact hchain
    obtain ⟨hcl, hcr, hjun⟩ := List.chain'_append.1 hchain2
    have hlne : h :: l1 ≠ [] := List.cons_ne_nil h l1
    set p := (h :: l1).getLast hlne with hpdef
    have hp : (h :: l1).getLast? = some p := List.getLast?_eq_getLast _ hlne
    have hpmem : p ∈ h :: l1 := by
      rw [hpdef]
      exact List.getLast_mem hlne
    have hlinkpk : linkedAt c p k := by
      apply hjun p ?_ k ?_
      · rw [hp]
        rfl
      · rfl
    have hpk : p ≠ k := fun hx => hknotl1 (hx ▸ hpmem)
    -- entries of p and k
    have hkmemkeys : k ∈ keysOf c :=
      hperm.mem_iff.2 (List.mem_cons_of_mem h hkrest)
    obtain ⟨ev, hev⟩ := Option.isSome_iff_exists.1 ((mapLookup_isSome_iff _ _).2 hkmemkeys)
    have hpmemkeys : p ∈ keysOf c := by
      apply hperm.mem_iff.2
      rw [hform]
      exact List.mem_append_left _ hpmem
    obtain ⟨ep, hep⟩ := Option.isSome_iff_exists.1 ((mapLookup_isSome_iff _ _).2 hpmemkeys)
    have hevprev : ev.prev = p := by
      have h2 : prevOf c k = some p := hlinkpk.2
      simp only [prevOf, hev, Option.map_some'] at h2
      exact Option.some_injective _ h2
    -- the first repair: entry p's next skips over k
    have hmod1 : mapModify c.entries ev.prev (fun e => { e with next := ev.next }) =
        some (mapSet c.entries p { ep with next := ev.next }) := by
      rw [hevprev]
      exact mapModify_eq_some _ hep
    set lp : List (Nat × Entry T) := mapSet c.entries p { ep with next := ev.next } with hlp
    have hlookp : ∀ j, mapLookup lp j =
        if p = j then some { ep with next := ev.next } else mapLookup c.entries j :=
      fun j => mapLookup_mapSet c.entries p j _
    have hkeysp : lp.map Prod.fst = keysOf c := keys_mapSet_mem _ hpmemkeys
    -- the evict equation, split on whether k is the tail
    cases l2 with
    | nil =>
      -- k is the last element, hence the tail
      have hktail : k = c.tail := by
        have h1 : (((h :: l1) ++ [k]) : List Nat).getLast? = some k := List.getLast?_concat _
        rw [← hform] at h1
        rw [h1] at hlast
        exact Option.some_injective _ hlast
      refine ⟨{ c with entries := lp, tail := ev.prev }, ?_, hkeysp, rfl, rfl, ?_, ?_, ?_, ?_, ?_⟩
      · -- the evict equation
        unfold LRUCache.evict
        rw [hev]
        simp only [if_neg hkh, hmod1]
        rw [if_pos hktail]
      · -- length
        show lp.length = c.entries.length
        have e1 : lp.length = (lp.map Prod.fst).length := by simp
        have e2 : c.entries.length = (keysOf c).length := by simp [keysOf]
        rw [e1, hkeysp, ← e2]
      · -- values untouched
        intro j
        show (mapLookup lp j).map (fun e => e.val) = (mapLookup c.entries j).map (fun e => e.val)
        rw [hlookp j]
        by_cases hpj : p = j
        · rw [if_pos hpj]
          subst hpj
          rw [hep]
          rfl
        · rw [if_neg hpj]
      · -- the chain on the remaining order
        have herase : (h :: (l1 ++ k :: [])).erase k = h :: l1 := by
          rw [hform, List.erase_append_right _ (by simpa using hknotl1), List.erase_cons_head]
          simp
        rw [herase]
        apply chain'_linkedAt_congr (h :: l1) ?_ ?_ hcl
        · intro a ha
          have hap : a ≠ p := by
            intro hx
            subst hx
            have hnd3 : ((h :: l1).dropLast ++ [(h :: l1).getLast hlne]).Nodup := by
              rw [List.dropLast_append_getLast hlne]
              exact hndleft
            have hdisj2 := (List.nodup_append.1 hnd3).2.2
            exact hdisj2 ha (by rw [← hpdef]; exact List.mem_singleton_self p)
          simp only [nextOf]
          rw [hlookp a, if_neg (fun hx => hap hx.symm)]
        · intro b hb
          simp only [prevOf]
          rw [hlookp b]
          by_cases hpb : p = b
          · rw [if_pos hpb]
            subst hpb
            rw [hep]
            rfl
          · rw [if_neg hpb]
      · -- head of the remaining order
        have herase : (h :: (l1 ++ k :: [])).erase k = h :: l1 := by
          rw [hform, List.erase_append_right _ (by simpa using hknotl1), List.erase_cons_head]
          simp
        rw [herase]
        simp [hh]
      · -- tail of the remaining order
        have herase : (h :: (l1 ++ k :: [])).erase k = h :: l1 := by
          rw [hform, List.erase_append_right _ (by simpa using hknotl1), List.erase_cons_head]
          simp
        rw [herase]
        show (h :: l1).getLast? = some ev.prev
        rw [hp, hevprev]
    | cons b l2' =>
      -- k is interior: also repair b's prev
      have hkb : k ≠ b := by
        intro hx
        exact hknotl2 (hx ▸ List.mem_cons_self b l2')
      have hlinkkb : linkedAt c k b := (List.chain'_cons.1 hcr).1
      have hevnext : ev.next = b := by
        have h2 : nextOf c k = some b := hlinkkb.1
        simp only [nextOf, hev, Option.map_some'] at h2
        exact Option.some_injective _ h2
      have hktail : ¬ k = c.tail := by
        intro hx
        have h1 : (((h :: l1) ++ (k :: b :: l2')) : List Nat).getLast? =
            (k :: b :: l2').getLast? := List.getLast?_append_of_ne_nil _ (List.cons_ne_nil _ _)
        rw [← hform] at h1
        rw [h1, List.getLast?_cons_cons] at hlast
        have hmem : c.tail ∈ b :: l2' := by
          have := List.mem_of_mem_getLast? (l := b :: l2') (a := c.tail) (by rw [hlast]; rfl)
          exact this
        rw [← hx] at hmem
        exact hknotl2 hmem
      have hbmem : b ∈ b :: l2' := List.mem_cons_self b l2'
      have hbmemkeys : b ∈ keysOf c := by
        apply hperm.mem_iff.2
        rw [hform]
        exact List.mem_append_right _ (List.mem_cons_of_mem k hbmem)
      have hpb : p ≠ b := by
        intro hx
        apply hdisj (hx ▸ hpmem)
        exact List.mem_cons_of_mem k hbmem
      obtain ⟨eb, heb⟩ := Option.isSome_iff_exists.1 ((mapLookup_isSome_iff _ _).2 hbmemkeys)
      have hlookpb : mapLookup lp b = some eb := by
        rw [hlookp b, if_neg hpb, heb]
      have hmod2 : mapModify lp ev.next (fun e => { e with prev := ev.prev }) =
          some (mapSet lp b { eb with prev := ev.prev }) := by
        rw [hevnext]
        exact mapModify_eq_some _ hlookpb
      set lq : List (Nat × Entry T) := mapSet lp b { eb with prev := ev.prev } with hlq
      have hlookq : ∀ j, mapLookup lq j =
          if b = j then some { eb with prev := ev.prev } else mapLookup lp j :=
        fun j => mapLookup_mapSet lp b j _
      have hkeysq : lq.map Prod.fst = keysOf c := by
        have hbm : b ∈ lp.map Prod.fst := by
          rw [hkeysp]
          exact hbmemkeys
        rw [keys_mapSet_mem _ hbm, hkeysp]
      have herase : (h :: (l1 ++ k :: b :: l2')).erase k = (h :: l1) ++ (b :: l2') := by
        rw [hform, List.erase_append_right _ (by simpa using hknotl1), List.erase_cons_head]
      refine ⟨{ c with entries := lq }, ?_, hkeysq, rfl, rfl, ?_, ?_, ?_, ?_, ?_⟩
      · -- the evict equation
        unfold LRUCache.evict
        rw [hev]
        simp only [if_neg hkh, hmod1]
        rw [if_neg hktail]
        simp only [hmod2]
      · -- length
        show lq.length = c.entries.length
        have e1 : lq.length = (lq.map Prod.fst).length := by simp
        have e2 : c.entries.length = (keysOf c).length := by simp [keysOf]
        rw [e1, hkeysq, ← e2]
      · -- values untouched
        intro j
        show (mapLookup lq j).map (fun e => e.val) = (mapLookup c.entries j).map (fun e => e.val)
        rw [hlookq j, hlookp j]
        by_cases hbj : b = j
        · rw [if_pos hbj]
          subst hbj
          rw [heb]
          rfl
        · rw [if_neg hbj]
          by_cases hpj : p = j
          · rw [if_pos hpj]
            subst hpj
            rw [hep]
            rfl
          · rw [if_neg hpj]
      · -- the chain on the remaining order
        rw [herase]
        rw [List.chain'_append]
        refine ⟨?_, ?_, ?_⟩
        · -- left part
          apply chain'_linkedAt_congr (h :: l1) ?_ ?_ hcl
          · intro a ha
            have hamem : a ∈ h :: l1 := List.dropLast_subset _ ha
            have hap : a ≠ p := by
              intro hx
              subst hx
              have hnd3 : ((h :: l1).dropLast ++ [(h :: l1).getLast hlne]).Nodup := by
                rw [List.dropLast_append_getLast hlne]
                exact hndleft
              have hdisj2 := (List.nodup_append.1 hnd3).2.2
              exact hdisj2 ha (by rw [← hpdef]; exact List.mem_singleton_self p)
            have hab : a ≠ b := by
              intro hx
              apply hdisj (hx ▸ hamem)
              exact List.mem_cons_of_mem k hbmem
            simp only [nextOf]
            rw [hlookq a, if_neg (fun hx => hab hx.symm), hlookp a,
              if_neg (fun hx => hap hx.symm)]
          · intro b' hb'
            have hb'mem : b' ∈ h :: l1 := List.drop_subset 1 _ hb'
            have hb'b : b' ≠ b := by
              intro hx
              apply hdisj (hx ▸ hb'mem)
              exact List.mem_cons_of_mem k hbmem
            simp only [prevOf]
            rw [hlookq b', if_neg (fun hx => hb'b hx.symm), hlookp b']
            by_cases hpb' : p = b'
            · rw [if_pos hpb']
              subst hpb'
              rw [hep]
              rfl
            · rw [if_neg hpb']
        · -- right part
          have hcr' : List.Chain' (linkedAt c) (b :: l2') := (List.chain'_cons.1 hcr).2
          apply chain'_linkedAt_congr (b :: l2') ?_ ?_ hcr'
          · intro a ha
            have hamem : a ∈ b :: l2' := List.dropLast_subset _ ha
            have hap : a ≠ p := by
              intro hx
              apply hdisj (hx ▸ hpmem)
              exact List.mem_cons_of_mem k hamem
            simp only [nextOf]
            rw [hlookq a]
            by_cases hba : b = a
            · rw [if_pos hba]
              subst hba
              rw [heb]
              rfl
            · rw [if_neg hba, hlookp a, if_neg (fun hx => hap hx.symm)]
          · intro b' hb'
            have hb'mem : b' ∈ l2' := by simpa using hb'
            have hb'b : b' ≠ b := by
              intro hx
              have := (List.nodup_cons.1 (List.nodup_cons.1 hndright).2).1
              exact this (hx ▸ hb'mem)
            have hb'p : b' ≠ p := by
              intro hx
              apply hdisj (hx ▸ hpmem)
              exact List.mem_cons_of_mem k (List.mem_cons_of_mem b hb'mem)
            simp only [prevOf]
            rw [hlookq b', if_neg (fun hx => hb'b hx.symm), hlookp b',
              if_neg (fun hx => hb'p hx.symm)]
        · -- the new junction p -- b
          intro x hx y hy
          rw [hp] at hx
          have hxp : x = p := (Option.some_injective _ (Option.mem_def.1 hx)).symm
          have hyb : y = b := (Option.some_injective _ (Option.mem_def.1 hy)).symm
          rw [hxp, hyb]
          constructor
          · show (mapLookup lq p).map (fun e => e.next) = some b
            rw [hlookq p, if_neg (fun hx2 => hpb hx2.symm), hlookp p, if_pos rfl]
            simp [hevnext]
          · show (mapLookup lq b).map (fun e => e.prev) = some p
            rw [hlookq b, if_pos rfl]
            simp [hevprev]
      · -- head of the remaining order
        rw [herase]
        simp [hh]
      · -- tail of the remaining order
        rw [herase]
        show (((h :: l1) ++ (b :: l2')) : List Nat).getLast? = some c.tail
        rw [List.getLast?_append_of_ne_nil _ (List.cons_ne_nil b l2')]
        have h1 : (((h :: l1) ++ (k :: b :: l2')) : List Nat).getLast? =
            (k :: b :: l2').getLast? := List.getLast?_append_of_ne_nil _ (List.cons_ne_nil _ _)
        rw [← hform] at h1
        rw [h1, List.getLast?_cons_cons] at hlast
        exact hlast

theorem touch_consistent {c : LRUCache T} {order : List Nat} {k : Nat}
    (hc : Consistent c order) (hk : k ∈ order) :
    ∃ c', c.touch_index k = some c' ∧ Consistent c' (k :: order.erase k) ∧
      c'.capacity = c.capacity ∧ c'.entries.length = c.entries.length ∧
      (∀ j, valAt c' j = valAt c j) := by
  by_cases hkh : k = c.head
  · refine ⟨c, ?_, ?_, rfl, rfl, fun j => rfl⟩
    · unfold LRUCache.touch_index
      rw [if_pos hkh]
    · obtain ⟨hperm, hnd, hchain, hht⟩ := hc
      have hne : order ≠ [] := List.ne_nil_of_mem hk
      rcases hht with h | hht
      · exact absurd h hne
      cases order with
      | nil => cases hk
      | cons h rest =>
        have hh : h = c.head := by
          have h1 := hht.1
          simp only [List.head?_cons, Option.some.injEq] at h1
          exact h1
        have hkeq : k = h := hkh.trans hh.symm
        subst hkeq
        rw [List.erase_cons_head]
        exact ⟨hperm, hnd, hchain, Or.inr hht⟩
  · obtain ⟨c1, hev, hkeys1, hcap1, hhead1, hlen1, hval1, hchain1, hhd1, htl1⟩ :=
      evict_unlinks hc hk hkh
    obtain ⟨hperm, hnd, -, -⟩ := hc
    have hkeys1p : (keysOf c1).Perm (k :: order.erase k) := by
      rw [hkeys1]
      exact hperm.trans (List.perm_cons_erase hk)
    have hnd1 : (keysOf c1).Nodup := by
      rw [hkeys1]
      exact hnd
    obtain ⟨c2, hpf, hcons2, hcap2, hlen2, hheadk, hval2⟩ :=
      push_front_consistent hkeys1p hnd1 hchain1 (Or.inr ⟨hhd1, htl1⟩)
    refine ⟨c2, ?_, hcons2, hcap2.trans hcap1, hlen2.trans hlen1,
      fun j => (hval2 j).trans (hval1 j)⟩
    unfold LRUCache.touch_index
    rw [if_neg hkh, hev]
    exact hpf

theorem runIter_go {c : LRUCache T} (rest : List Nat) :
    ∀ a : Nat,
      List.Chain' (linkedAt c) (a :: rest) →
      (∀ x ∈ a :: rest, x ∈ keysOf c) →
      (a :: rest).Nodup →
      (a :: rest).getLast? = some c.tail →
      ∃ l : List (Nat × T), runIter c ⟨a, false⟩ (rest.length + 2) = .finished l ∧
        l.map Prod.fst = a :: rest ∧ (∀ q ∈ l, valAt c q.1 = some q.2) := by
  induction rest with
  | nil =>
    intro a hchain hmem hnd hlast
    have hat : a = c.tail := by simpa using hlast
    obtain ⟨ea, hea⟩ :=
      Option.isSome_iff_exists.1 ((mapLookup_isSome_iff _ _).2 (hmem a (by simp)))
    have hstep : iterNext c ⟨a, false⟩ = some (some ((a, ea.val), ⟨ea.next, true⟩)) := by
      have h0 : iterNext c ⟨a, false⟩ =
          match mapLookup c.entries a with
          | none => none
          | some e => some (some ((a, e.val), ⟨e.next, decide (a = c.tail)⟩)) := rfl
      rw [h0, hea]
      simp [hat]
    refine ⟨[(a, ea.val)], ?_, by simp, ?_⟩
    · have h0 : runIter c ⟨a, false⟩ (([] : List Nat).length + 2) =
          match iterNext c ⟨a, false⟩ with
          | none => IterRun.aborted
          | some none => IterRun.finished []
          | some (some (kv, s')) =>
            match runIter c s' (([] : List Nat).length + 1) with
            | IterRun.aborted => IterRun.aborted
            | IterRun.fuelOut l' s'' => IterRun.fuelOut (kv :: l') s''
            | IterRun.finished l' => IterRun.finished (kv :: l') := rfl
      rw [h0, hstep]
      rfl
    · intro q hq
      have : q = (a, ea.val) := by simpa using hq
      subst this
      simp [valAt, hea]
  | cons b t ih =>
    intro a hchain hmem hnd hlast
    have hlink : linkedAt c a b := (List.chain'_cons.1 hchain).1
    obtain ⟨ea, hea⟩ :=
      Option.isSome_iff_exists.1 ((mapLookup_isSome_iff _ _).2 (hmem a (by simp)))
    have hanext : ea.next = b := by
      have h2 : nextOf c a = some b := hlink.1
      simp only [nextOf, hea, Option.map_some'] at h2
      exact Option.some_injective _ h2
    have hlast2 : (b :: t).getLast? = some c.tail := by
      rw [List.getLast?_cons_cons] at hlast
      exact hlast
    have hat : ¬ a = c.tail := by
      intro hx
      have hmem2 : c.tail ∈ b :: t :=
        List.mem_of_mem_getLast? (by rw [hlast2]; rfl)
      rw [← hx] at hmem2
      exact (List.nodup_cons.1 hnd).1 hmem2
    have hstep : iterNext c ⟨a, false⟩ = some (some ((a, ea.val), ⟨b, false⟩)) := by
      simp [iterNext, hea, hanext, hat]
    obtain ⟨l, hl, hlkeys, hlvals⟩ :=
      ih b (List.chain'_cons.1 hchain).2
        (fun x hx => hmem x (List.mem_cons_of_mem a hx))
        (List.nodup_cons.1 hnd).2 hlast2
    refine ⟨(a, ea.val) :: l, ?_, by simp [hlkeys], ?_⟩
    · have h0 : runIter c ⟨a, false⟩ ((b :: t).length + 2) =
          match iterNext c ⟨a, false⟩ with
          | none => IterRun.aborted
          | some none => IterRun.finished []
          | some (some (kv, s')) =>
            match runIter c s' ((b :: t).length + 1) with
            | IterRun.aborted => IterRun.aborted
            | IterRun.fuelOut l' s'' => IterRun.fuelOut (kv :: l') s''
            | IterRun.finished l' => IterRun.finished (kv :: l') := rfl
      rw [h0, hstep]
      show (match runIter c ⟨b, false⟩ ((b :: t).length + 1) with
            | IterRun.aborted => IterRun.aborted
            | IterRun.fuelOut l' s'' => IterRun.fuelOut ((a, ea.val) :: l') s''
            | IterRun.finished l' => IterRun.finished ((a, ea.val) :: l')) =
          IterRun.finished ((a, ea.val) :: l)
      have h1 : runIter c ⟨b, false⟩ ((b :: t).length + 1) = IterRun.finished l := hl
      rw [h1]
    · intro q hq
      rcases List.mem_cons.1 hq with h1 | h1
      · subst h1
        simp [valAt, hea]
      · exact hlvals q h1

theorem runIter_finished {c : LRUCache T} {order : List Nat} (hc : Consistent c order) :
    ∃ l : List (Nat × T), runIter c c.iter (order.length + 1) = .finished l ∧
      l.map Prod.fst = order ∧ (∀ q ∈ l, valAt c q.1 = some q.2) ∧
      l.length = order.length := by
  obtain ⟨hperm, hnd, hchain, hht⟩ := hc
  cases order with
  | nil =>
    have hkeysnil : keysOf c = [] := hperm.eq_nil
    have hent : c.entries = [] := by
      have := hkeysnil
      unfold keysOf at this
      exact List.map_eq_nil_iff.1 this
    refine ⟨[], ?_, rfl, by simp, rfl⟩
    have hiter : c.iter = ⟨c.head, true⟩ := by
      simp [LRUCache.iter, hent]
    rw [hiter]
    rfl
  | cons h rest =>
    rcases hht with h' | hht
    · cases h'
    have hh : h = c.head := by
      have h1 := hht.1
      simp only [List.head?_cons, Option.some.injEq] at h1
      exact h1
    have hne : c.entries ≠ [] := by
      intro hx
      have : keysOf c = [] := by
        unfold keysOf
        rw [hx]
        rfl
      rw [this] at hperm
      exact (List.cons_ne_nil h rest) hperm.symm.eq_nil
    have hiter : c.iter = ⟨h, false⟩ := by
      unfold LRUCache.iter
      rw [hh]
      congr 1
      simpa using hne
    obtain ⟨l, hrun, hkeys, hvals⟩ :=
      runIter_go rest h hchain (fun x hx => hperm.mem_iff.2 hx)
        (hperm.nodup_iff.1 hnd) hht.2
    refine ⟨l, ?_, hkeys, hvals, ?_⟩
    · rw [hiter]
      exact hrun
    · have := congrArg List.length hkeys
      simpa using this

theorem keys_mapSet_superset {l : List (Nat × Entry T)} {j : Nat} (k : Nat) (e : Entry T)
    (h : j ∈ l.map Prod.fst) : j ∈ (mapSet l k e).map Prod.fst := by
  by_cases hk : k ∈ l.map Prod.fst
  · rw [keys_mapSet_mem _ hk]
    exact h
  · rw [keys_mapSet_not_mem _ hk]
    exact List.mem_append_left _ h

theorem self_mem_keys_mapSet (l : List (Nat × Entry T)) (k : Nat) (e : Entry T) :
    k ∈ (mapSet l k e).map Prod.fst := by
  apply mapLookup_mem_of_some (e := e)
  rw [mapLookup_mapSet, if_pos rfl]

theorem head_mem_dropLast {c : LRUCache T} {order : List Nat}
    (hc : Consistent c order) (h2 : 2 ≤ order.length) :
    c.head ∈ order.dropLast := by
  obtain ⟨-, -, -, hht⟩ := hc
  cases order with
  | nil => simp at h2
  | cons h rest =>
    cases rest with
    | nil => simp at h2
    | cons b t =>
      rcases hht with hx | hht
      · cases hx
      have hh : h = c.head := by
        have h1 := hht.1
        simp only [List.head?_cons, Option.some.injEq] at h1
        exact h1
      rw [← hh]
      simp

theorem insert_eq_full {c : LRUCache T} (k : Nat) (v : T) {kv : Nat × T}
    {c1 : LRUCache T}
    (hfull : c.entries.length = c.capacity)
    (hrem : c.remove_lru = (some kv, c1)) :
    c.insert k v =
      match mapLookup c1.entries k with
      | some e =>
        (match LRUCache.push_front { c1 with entries := mapSet c1.entries k ⟨v, e.prev, e.next⟩ } k with
         | none => none
         | some c2 => some (c2, some e.val))
      | none =>
        (match LRUCache.push_front { c1 with entries := mapSet c1.entries k ⟨v, 0, 0⟩ } k with
         | none => none
         | some c2 => some (c2, none)) := by
  unfold LRUCache.insert
  rw [if_pos hfull, hrem]
  rcases hx : mapLookup c1.entries k with _ | e <;> simp only [hx]

theorem insert_eq_nonfull {c : LRUCache T} (k : Nat) (v : T)
    (hnf : ¬ c.entries.length = c.capacity) :
    c.insert k v =
      match mapLookup c.entries k with
      | some e =>
        (match LRUCache.push_front { c with entries := mapSet c.entries k ⟨v, e.prev, e.next⟩ } k with
         | none => none
         | some c2 => some (c2, some e.val))
      | none =>
        (match LRUCache.push_front { c with entries := mapSet c.entries k ⟨v, 0, 0⟩ } k with
         | none => none
         | some c2 => some (c2, none)) := by
  unfold LRUCache.insert
  rw [if_neg hnf]
  rcases hx : mapLookup c.entries k with _ | e <;> simp only [hx]

theorem insert_cap0 {c : LRUCache T} (hcap : c.capacity = 0) (hent : c.entries = [])
    (k : Nat) (v : T) : c.insert k v = none := by
  have hfull : c.entries.length = c.capacity := by
    rw [hent, hcap]
    rfl
  have hrem : c.remove_lru = (none, c) := remove_lru_empty hent
  unfold LRUCache.insert
  rw [if_pos hfull, hrem]

theorem push_front_isSome {c : LRUCache T} {k : Nat}
    (hk : k ∈ c.entries.map Prod.fst)
    (hh : c.entries.length = 1 ∨ c.head ∈ c.entries.map Prod.fst) :
    (c.push_front k).isSome = true := by
  unfold LRUCache.push_front
  by_cases h1 : c.entries.length = 1
  · rw [if_pos h1]
    rfl
  · rw [if_neg h1]
    rcases hh with h | hhm
    · exact absurd h h1
    obtain ⟨ek, hek⟩ := Option.isSome_iff_exists.1 ((mapLookup_isSome_iff _ _).2 hk)
    have hhm2 : c.head ∈ (mapSet c.entries k { ek with next := c.head }).map Prod.fst :=
      keys_mapSet_superset k _ hhm
    obtain ⟨eh, heh⟩ := Option.isSome_iff_exists.1 ((mapLookup_isSome_iff _ _).2 hhm2)
    simp only [mapModify_eq_some _ hek, mapModify_eq_some _ heh]
    rfl

theorem insert_full_fresh {c : LRUCache T} {order : List Nat} (k : Nat) (v : T)
    (hc : Consistent c order) (hfull : c.entries.length = c.capacity)
    (hcap : 1 ≤ c.capacity) (hk : k ∉ order) :
    ∃ (t : Nat) (c' : LRUCache T),
      order.getLast? = some t ∧ t = c.tail ∧ ¬ t = k ∧
      c.insert k v = some (c', none) ∧
      Consistent c' (k :: order.dropLast) ∧
      c'.capacity = c.capacity ∧ c'.entries.length = c.capacity ∧
      mapContains c'.entries t = false ∧
      valAt c' k = some v ∧
      (∀ j, ¬ j = k → ¬ j = t → valAt c' j = valAt c j) := by
  have hlenord := consistent_length hc
  have hne : order ≠ [] := by
    intro hx
    rw [hx] at hlenord
    simp only [List.length_nil] at hlenord
    rw [hlenord] at hfull
    omega
  have hordnd := consistent_order_nodup hc
  obtain ⟨t, e, hget, htc, hlook, hremeq, hcons1, hlen1, hframe1, hcont1⟩ :=
    remove_lru_consistent hc hne
  have htmem : t ∈ order := List.mem_of_mem_getLast? (by rw [hget]; rfl)
  have htk : ¬ t = k := fun hx => hk (hx ▸ htmem)
  have hdecomp : order.dropLast ++ [t] = order :=
    List.dropLast_append_getLast? t (by rw [hget]; rfl)
  have htnotdl : t ∉ order.dropLast := by
    intro hmem
    have : ¬ order.Nodup := by
      rw [← hdecomp]
      simp [List.nodup_append, hmem]
    exact this hordnd
  obtain ⟨hperm1, hnd1, hchain1, hht1⟩ := hcons1
  have hkc1 : k ∉ (mapRemove c.entries t).2.map Prod.fst := by
    intro hmem
    apply hk
    exact List.dropLast_subset _ (hperm1.mem_iff.1 hmem)
  have hlookk : mapLookup (mapRemove c.entries t).2 k = none :=
    (mapLookup_eq_none_iff _ _).2 hkc1
  have hunf := insert_eq_full k v hfull hremeq
  simp only [hlookk] at hunf
  -- the cache after the vacant insert
  have hkeys2 : (mapSet (mapRemove c.entries t).2 k ⟨v, 0, 0⟩).map Prod.fst =
      (mapRemove c.entries t).2.map Prod.fst ++ [k] :=
    keys_mapSet_not_mem _ hkc1
  have hperm2 : ((mapSet (mapRemove c.entries t).2 k ⟨v, 0, 0⟩).map Prod.fst).Perm
      (k :: order.dropLast) := by
    rw [hkeys2]
    exact (List.perm_append_singleton _ _).trans (hperm1.cons k)
  have hnd2 : ((mapSet (mapRemove c.entries t).2 k ⟨v, 0, 0⟩).map Prod.fst).Nodup := by
    rw [hkeys2]
    refine List.Nodup.append hnd1 (List.nodup_singleton k) ?_
    intro x hx hxk
    have : x = k := by simpa using hxk
    exact hkc1 (this ▸ hx)
  have hchain2 : List.Chain'
      (linkedAt (LRUCache.mk (mapSet (mapRemove c.entries t).2 k ⟨v, 0, 0⟩)
        c.head e.prev c.capacity))
      order.dropLast := by
    apply chain'_linkedAt_congr order.dropLast ?_ ?_ hchain1
    · intro a ha
      have hka : ¬ k = a := by
        intro hx
        exact hk (hx ▸ List.dropLast_subset _ (List.dropLast_subset _ ha))
      have hka' : ¬ k = a := fun hx => hk (hx ▸ List.dropLast_subset _ (List.dropLast_subset _ ha))
      show (mapLookup (mapSet (mapRemove c.entries t).2 k ⟨v, 0, 0⟩) a).map (fun x => x.next) =
        nextOf ({ c with entries := (mapRemove c.entries t).2, tail := e.prev } : LRUCache T) a
      rw [mapLookup_mapSet, if_neg hka]
      rfl
    · intro b hb
      have hkb : ¬ k = b := by
        intro hx
        exact hk (hx ▸ List.dropLast_subset _ (List.drop_subset 1 _ hb))
      show (mapLookup (mapSet (mapRemove c.entries t).2 k ⟨v, 0, 0⟩) b).map (fun x => x.prev) =
        prevOf ({ c with entries := (mapRemove c.entries t).2, tail := e.prev } : LRUCache T) b
      rw [mapLookup_mapSet, if_neg hkb]
      rfl
  obtain ⟨c3, hpf, hcons3, hcap3, hlen3, hhead3, hval3⟩ :=
    @push_front_consistent T
      (LRUCache.mk (mapSet (mapRemove c.entries t).2 k ⟨v, 0, 0⟩) c.head e.prev c.capacity)
      order.dropLast k hperm2 hnd2 hchain2 hht1
  have hpf' : LRUCache.push_front
      (LRUCache.mk (mapSet (mapRemove c.entries t).2 k ⟨v, 0, 0⟩) c.head e.prev c.capacity)
      k = some c3 := hpf
  simp only [hpf'] at hunf
  refine ⟨t, c3, hget, htc, htk, hunf, hcons3, hcap3, ?_, ?_, ?_, ?_⟩
  · -- length
    have h1 : c3.entries.length =
        (mapSet (mapRemove c.entries t).2 k ⟨v, 0, 0⟩).length := hlen3
    have h2 : (mapSet (mapRemove c.entries t).2 k ⟨v, 0, 0⟩).length =
        (mapRemove c.entries t).2.length + 1 := length_mapSet_not_mem _ hkc1
    rw [h1, h2, hlen1, hfull]
  · -- the evicted key is gone
    obtain ⟨hperm3, -, -, -⟩ := hcons3
    rw [mapContains_eq_false_iff]
    intro hmem
    have : t ∈ k :: order.dropLast := hperm3.mem_iff.1 hmem
    rcases List.mem_cons.1 this with h1 | h1
    · exact htk h1
    · exact htnotdl h1
  · -- the new value is stored
    have h1 : valAt c3 k = (mapLookup (mapSet (mapRemove c.entries t).2 k ⟨v, 0, 0⟩) k).map
        (fun x => x.val) := hval3 k
    rw [h1, mapLookup_mapSet, if_pos rfl]
    rfl
  · -- untouched values
    intro j hjk hjt
    have h1 : valAt c3 j = (mapLookup (mapSet (mapRemove c.entries t).2 k ⟨v, 0, 0⟩) j).map
        (fun x => x.val) := hval3 j
    rw [h1, mapLookup_mapSet, if_neg (fun hx => hjk hx.symm), hframe1 j hjt]
    rfl

theorem head_mem_keys {c : LRUCache T} {order : List Nat}
    (hc : Consistent c order) (hne : order ≠ []) :
    c.head ∈ c.entries.map Prod.fst := by
  obtain ⟨hperm, -, -, hht⟩ := hc
  rcases hht with h | hht
  · exact absurd h hne
  cases order with
  | nil => exact absurd rfl hne
  | cons h rest =>
    have hh : h = c.head := by
      have h1 := hht.1
      simp only [List.head?_cons, Option.some.injEq] at h1
      exact h1
    apply hperm.mem_iff.2
    rw [← hh]
    exact List.mem_cons_self h rest

theorem insert_isSome {c : LRUCache T} {order : List Nat}
    (hc : Consistent c order) (hcap : 1 ≤ c.capacity) (k : Nat) (v : T) :
    (c.insert k v).isSome = true := by
  by_cases hfull : c.entries.length = c.capacity
  · have hlenord := consistent_length hc
    have hne : order ≠ [] := by
      intro hx
      rw [hx] at hlenord
      simp only [List.length_nil] at hlenord
      rw [hlenord] at hfull
      omega
    obtain ⟨t, e, hget, htc, hlook, hremeq, hcons1, hlen1, hframe1, hcont1⟩ :=
      remove_lru_consistent hc hne
    obtain ⟨hperm1, hnd1, hchain1, hht1⟩ := hcons1
    have hcent : ({ c with entries := (mapRemove c.entries t).2, tail := e.prev } :
        LRUCache T).entries = (mapRemove c.entries t).2 := rfl
    have hchead : ({ c with entries := (mapRemove c.entries t).2, tail := e.prev } :
        LRUCache T).head = c.head := rfl
    have hctail : ({ c with entries := (mapRemove c.entries t).2, tail := e.prev } :
        LRUCache T).tail = e.prev := rfl
    have hccap : ({ c with entries := (mapRemove c.entries t).2, tail := e.prev } :
        LRUCache T).capacity = c.capacity := rfl
    rw [insert_eq_full k v hfull hremeq]
    simp only [hcent, hchead, hctail, hccap]
    rcases hx : mapLookup (mapRemove c.entries t).2 k with _ | ek
    · -- the key is fresh in the shrunk table
      have hknot : k ∉ (mapRemove c.entries t).2.map Prod.fst :=
        (mapLookup_eq_none_iff _ _).1 hx
      have hps : (LRUCache.push_front
          (LRUCache.mk (mapSet (mapRemove c.entries t).2 k ⟨v, 0, 0⟩)
            c.head e.prev c.capacity) k).isSome = true := by
        apply push_front_isSome
        · exact self_mem_keys_mapSet _ _ _
        · by_cases hcap1 : c.capacity = 1
          · left
            show (mapSet (mapRemove c.entries t).2 k ⟨v, 0, 0⟩).length = 1
            rw [length_mapSet_not_mem _ hknot]
            omega
          · right
            show c.head ∈ (mapSet (mapRemove c.entries t).2 k ⟨v, 0, 0⟩).map Prod.fst
            apply keys_mapSet_superset
            have h2 : 2 ≤ order.length := by omega
            exact hperm1.mem_iff.2 (head_mem_dropLast hc h2)
      obtain ⟨c2, hc2⟩ := Option.isSome_iff_exists.1 hps
      rw [hc2]
      rfl
    · -- the key survived the eviction
      have hkmem : k ∈ (mapRemove c.entries t).2.map Prod.fst := mapLookup_mem_of_some hx
      have hlen2 : 1 ≤ (mapRemove c.entries t).2.length := by
        cases hy : (mapRemove c.entries t).2 with
        | nil =>
          rw [hy] at hkmem
          cases hkmem
        | cons q l => simp [hy]
      have h2 : 2 ≤ order.length := by omega
      show ((match LRUCache.push_front
          (LRUCache.mk (mapSet (mapRemove c.entries t).2 k ⟨v, ek.prev, ek.next⟩)
            c.head e.prev c.capacity) k with
        | none => none
        | some c2 => some (c2, some ek.val)) : Option (LRUCache T × Option T)).isSome = true
      have hps : (LRUCache.push_front
          (LRUCache.mk (mapSet (mapRemove c.entries t).2 k ⟨v, ek.prev, ek.next⟩)
            c.head e.prev c.capacity) k).isSome = true := by
        apply push_front_isSome
        · exact self_mem_keys_mapSet _ _ _
        · right
          show c.head ∈ (mapSet (mapRemove c.entries t).2 k ⟨v, ek.prev, ek.next⟩).map Prod.fst
          apply keys_mapSet_superset
          exact hperm1.mem_iff.2 (head_mem_dropLast hc h2)
      obtain ⟨c2, hc2⟩ := Option.isSome_iff_exists.1 hps
      rw [hc2]
      rfl
  · rw [insert_eq_nonfull k v hfull]
    rcases hx : mapLookup c.entries k with _ | ek
    · have hknot : k ∉ c.entries.map Prod.fst := (mapLookup_eq_none_iff _ _).1 hx
      have hps : (LRUCache.push_front
          ({ c with entries := mapSet c.entries k ⟨v, 0, 0⟩ } : LRUCache T) k).isSome = true := by
        apply push_front_isSome
        · exact self_mem_keys_mapSet _ _ _
        · by_cases hord : order = []
          · left
            subst hord
            have hkeysnil : keysOf c = [] := hc.1.eq_nil
            have hent : c.entries = [] := by
              unfold keysOf at hkeysnil
              exact List.map_eq_nil_iff.1 hkeysnil
            show (mapSet c.entries k ⟨v, 0, 0⟩).length = 1
            rw [length_mapSet_not_mem _ hknot, hent]
            rfl
          · right
            show c.head ∈ (mapSet c.entries k ⟨v, 0, 0⟩).map Prod.fst
            exact keys_mapSet_superset _ _ (head_mem_keys hc hord)
      obtain ⟨c2, hc2⟩ := Option.isSome_iff_exists.1 hps
      rw [hc2]
      rfl
    · have hkmem : k ∈ c.entries.map Prod.fst := mapLookup_mem_of_some hx
      have hord : order ≠ [] := by
        intro hy
        subst hy
        have hkeysnil : keysOf c = [] := hc.1.eq_nil
        unfold keysOf at hkeysnil
        rw [hkeysnil] at hkmem
        cases hkmem
      show ((match LRUCache.push_front
          ({ c with entries := mapSet c.entries k ⟨v, ek.prev, ek.next⟩ } : LRUCache T) k with
        | none => none
        | some c2 => some (c2, some ek.val)) : Option (LRUCache T × Option T)).isSome = true
      have hps : (LRUCache.push_front
          ({ c with entries := mapSet c.entries k ⟨v, ek.prev, ek.next⟩ } :
            LRUCache T) k).isSome = true := by
        apply push_front_isSome
        · exact self_mem_keys_mapSet _ _ _
        · right
          show c.head ∈ (mapSet c.entries k ⟨v, ek.prev, ek.next⟩).map Prod.fst
          exact keys_mapSet_superset _ _ (head_mem_keys hc hord)
      obtain ⟨c2, hc2⟩ := Option.isSome_iff_exists.1 hps
      rw [hc2]
      rfl

/-! ### Claim theorems -/

/-- C1: the claim says the recency-list invariant holds after every public
operation, but the code violates it.  The public-API call sequence
`new(4); insert(1,10); insert(2,20); insert(2,21)` produces `dupCache`, where
key `1` sits in the table yet is never reached by following `next` from the
head: the head entry `2` links to itself, a cycle of length 1 while the table
holds 2 keys.  (`insert` re-links an existing key to the front without first
unlinking it from its old position.) -/
theorem C1_invariant_violated_by_duplicate_insert :
    buildDup = some dupCache ∧
    dupCache.entries.length = 2 ∧
    mapContains dupCache.entries 1 = true ∧
    dupCache.head = 2 ∧
    nextOf dupCache dupCache.head = some dupCache.head ∧
    (∀ n, followNext dupCache dupCache.head n = List.replicate n 2) ∧
    (∀ n, 1 ∉ followNext dupCache dupCache.head n) := by
  refine ⟨rfl, rfl, rfl, rfl, rfl, ?_, ?_⟩
  · intro n
    exact dup_follow n
  · intro n
    rw [show dupCache.head = 2 from rfl, dup_follow n]
    intro hmem
    exact absurd (List.eq_of_mem_replicate hmem) (by decide)

/-- C2: the claim says inserting an already-present key returns the prior
value, evicts nothing and keeps `len()`; the code instead evicts the tail
whenever `len == capacity`, regardless of the incoming key.  On the full
capacity-2 cache `full2` (keys `[2,1]`, key `1` holds `10`):
`insert(1,30)` returns `None` instead of `Some 10`, and `insert(2,30)` drops
`len()` from 2 to 1, evicting key `1`. -/
theorem C2_insert_present_on_full_misbehaves :
    buildFull2 = some full2 ∧
    full2.entries.length = full2.capacity ∧
    mapContains full2.entries 1 = true ∧
    valAt full2 1 = some 10 ∧
    (full2.insert 1 30).map Prod.snd = some none ∧
    (full2.insert 2 30).map (fun p => p.1.entries.length) = some 1 ∧
    (full2.insert 2 30).map (fun p => mapContains p.1.entries 1) = some false :=
  ⟨rfl, rfl, rfl, rfl, rfl, rfl, rfl⟩

/-- C3: the claim says full iteration always terminates with `len()` pairs on
every reachable cache state, but on the reachable state `dupCache`
(`new(4); insert(1,10); insert(2,20); insert(2,21)`) the cursor is a fixpoint:
every step yields `(2,21)` and returns to the same position, so no amount of
fuel ever finishes the iteration. -/
theorem C3_iteration_nonterminating :
    buildDup = some dupCache ∧
    dupCache.entries.length = 2 ∧
    (∀ n, runIter dupCache dupCache.iter n =
      .fuelOut (List.replicate n ((2, 21) : Nat × Nat)) ⟨2, false⟩) ∧
    (∀ n l, runIter dupCache dupCache.iter n ≠ .finished l) := by
  refine ⟨rfl, rfl, ?_, dup_iter_never_finishes⟩
  intro n
  rw [show dupCache.iter = ⟨2, false⟩ from rfl]
  exact dup_iter_loop n

/-- C4 counterexample: the claim says `new(capacity)` aborts iff
`capacity ≥ 2^16 = 65536`; but `new(65535)` aborts although `65535 < 65536`
(the code asserts `capacity < u16::MAX = 65535`, not `< 65536`). -/
theorem C4_new_at_65535_aborts :
    (LRUCache.new 65535 : Option (LRUCache Nat)) = none ∧ (65535 : Nat) < 65536 :=
  ⟨rfl, by decide⟩

/-- C4 (amended): `new(capacity)` fails fatally iff `capacity ≥ 65535`
(`u16::MAX`, the key-space size minus one); for every `capacity < 65535` it
succeeds and returns the empty store. -/
theorem C4_new_succeeds_iff_below_u16_max (T : Type) (cap : Nat) :
    ((LRUCache.new cap : Option (LRUCache T)).isSome = true ↔ cap < 65535) ∧
    (cap < 65535 → (LRUCache.new cap : Option (LRUCache T)) =
        some { entries := [], head := 0, tail := 0, capacity := cap }) ∧
    (65535 ≤ cap → (LRUCache.new cap : Option (LRUCache T)) = none) := by
  unfold LRUCache.new
  by_cases h : cap < 65535
  · refine ⟨by simp [h], fun _ => by simp [h], fun hle => absurd h (Nat.not_lt.2 hle)⟩
  · refine ⟨by simp [h], fun hlt => absurd hlt h, fun _ => by simp [h]⟩

/-- Witness for C4's amended theorem at capacities 3 and 70000. -/
theorem C4_new_succeeds_iff_below_u16_max_witness :
    (LRUCache.new 3 : Option (LRUCache Nat)) =
        some { entries := [], head := 0, tail := 0, capacity := 3 } ∧
    (LRUCache.new 70000 : Option (LRUCache Nat)) = none :=
  ⟨(C4_new_succeeds_iff_below_u16_max Nat 3).2.1 (by decide),
   (C4_new_succeeds_iff_below_u16_max Nat 70000).2.2 (by decide)⟩

/-- C7: the claim says `iter()`'s sequence is exactly the reverse of the
sequence obtained by draining `remove_lru()` to exhaustion, on every reachable
state.  On the reachable state `dupCache` the drain terminates with
`[(1,10),(2,21)]` (so its reverse is the key sequence `[2,1]`), while the
iterator never produces any finite sequence at all. -/
theorem C7_iter_not_reverse_of_drain :
    buildDup = some dupCache ∧
    (∀ n, drain dupCache (n + 3) = [(1, 10), (2, 21)]) ∧
    ((drain dupCache 3).map Prod.fst).reverse = [2, 1] ∧
    (∀ n l, runIter dupCache dupCache.iter n ≠ .finished l) :=
  ⟨rfl, dup_drain, rfl, dup_iter_never_finishes⟩

/-- C8: `get`/`get_mut` on an absent key and `remove_lru` on an empty store
never abort: they return the explicit absent value (`None`), for every cache
state and key. -/
theorem C8_miss_and_empty_are_recoverable (c : LRUCache T) (k : Nat) :
    (mapContains c.entries k = false →
      ((c.get k).isSome = true ∧ (c.get k).map Prod.snd = some none ∧
       (c.get_mut k).isSome = true ∧ (c.get_mut k).map Prod.snd = some none)) ∧
    (c.entries = [] → c.remove_lru.1 = none) := by
  constructor
  · intro h
    rw [get_miss h, get_mut_miss h]
    exact ⟨rfl, rfl, rfl, rfl⟩
  · intro h
    rw [remove_lru_empty h]

/-- Witness for C8 at a concrete cache (key 9 absent) and the empty cache. -/
theorem C8_miss_and_empty_are_recoverable_witness :
    ((cacheW.get 9).isSome = true ∧ (cacheW.get 9).map Prod.snd = some none ∧
     (cacheW.get_mut 9).isSome = true ∧ (cacheW.get_mut 9).map Prod.snd = some none) ∧
    emptyCache4.remove_lru.1 = none :=
  ⟨(C8_miss_and_empty_are_recoverable cacheW 9).1 (by decide),
   (C8_miss_and_empty_are_recoverable emptyCache4 9).2 rfl⟩

/-- C10: a failed lookup (`get`/`get_mut` on an absent key) and `remove_lru`
on an empty store are atomic: they return the whole cache state — entries with
all link fields, head, tail and capacity — exactly unchanged. -/
theorem C10_failed_ops_atomic (c : LRUCache T) (k : Nat) :
    (mapContains c.entries k = false →
      c.get k = some (c, none) ∧ c.get_mut k = some (c, none)) ∧
    (c.entries = [] → c.remove_lru = (none, c)) :=
  ⟨fun h => ⟨get_miss h, get_mut_miss h⟩, remove_lru_empty⟩

/-- Witness for C10 at a concrete full cache (key 9 absent) and the empty cache. -/
theorem C10_failed_ops_atomic_witness :
    (full2.get 9 = some (full2, none) ∧ full2.get_mut 9 = some (full2, none)) ∧
    emptyCache4.remove_lru = (none, emptyCache4) :=
  ⟨(C10_failed_ops_atomic full2 9).1 (by decide),
   (C10_failed_ops_atomic emptyCache4 9).2 rfl⟩

/-- C5: on a full cache satisfying the recency-list invariant (`len = capacity ≥ 1`,
recency order `order`), inserting an absent key evicts exactly the current tail
(the least-recently-touched key): the insert returns no prior value, the table
stays at `capacity` entries, iteration afterwards terminates with at most
`capacity` pairs in order `k :: order.dropLast`, the evicted key is gone from
the table, and a subsequent `get` of it returns `None` leaving the cache
unchanged. -/
theorem C5_insert_full_evicts_exactly_tail {c : LRUCache T} {order : List Nat}
    (k : Nat) (v : T)
    (hc : Consistent c order) (hfull : c.entries.length = c.capacity)
    (hcap : 1 ≤ c.capacity) (hk : k ∉ order) :
    ∃ (t : Nat) (c' : LRUCache T) (l : List (Nat × T)),
      order.getLast? = some t ∧ t = c.tail ∧
      c.insert k v = some (c', none) ∧
      c'.entries.length = c.capacity ∧
      mapContains c'.entries t = false ∧
      runIter c' c'.iter (c'.entries.length + 1) = .finished l ∧
      l.length ≤ c.capacity ∧
      l.map Prod.fst = k :: order.dropLast ∧
      c'.get t = some (c', none) := by
  obtain ⟨t, c', hget, htc, htk, hins, hcons', hcap', hlen', hcont', hvalk, hvals⟩ :=
    insert_full_fresh k v hc hfull hcap hk
  obtain ⟨l, hrun, hkeys, -, hllen⟩ := runIter_finished hcons'
  have hordlen := consistent_length hc
  have hdllen : order.dropLast.length = order.length - 1 := by
    simp [List.length_dropLast]
  have hne : order ≠ [] := by
    intro hx
    rw [hx] at hordlen
    simp only [List.length_nil] at hordlen
    rw [hordlen] at hfull
    omega
  have hop : 1 ≤ order.length := List.length_pos.2 hne
  have hfuel : (k :: order.dropLast).length + 1 = c'.entries.length + 1 := by
    simp only [List.length_cons]
    rw [hdllen, hlen']
    omega
  rw [hfuel] at hrun
  refine ⟨t, c', l, hget, htc, hins, hlen', hcont', hrun, ?_, hkeys, get_miss hcont'⟩
  have h1 : l.length = (k :: order.dropLast).length := hllen
  simp only [List.length_cons] at h1
  rw [h1, hdllen]
  omega

/-- Witness for C5: the full capacity-1 cache `cap1full` (single key 3),
inserting the fresh key 7 evicts exactly key 3. -/
theorem C5_insert_full_evicts_exactly_tail_witness :
    ∃ (t : Nat) (c' : LRUCache Nat) (l : List (Nat × Nat)),
      ([3] : List Nat).getLast? = some t ∧ t = cap1full.tail ∧
      cap1full.insert 7 70 = some (c', none) ∧
      c'.entries.length = cap1full.capacity ∧
      mapContains c'.entries t = false ∧
      runIter c' c'.iter (c'.entries.length + 1) = .finished l ∧
      l.length ≤ cap1full.capacity ∧
      l.map Prod.fst = 7 :: ([3] : List Nat).dropLast ∧
      c'.get t = some (c', none) :=
  C5_insert_full_evicts_exactly_tail 7 70 (by decide) (by decide) (by decide) (by decide)

/-- C6: on a cache satisfying the recency-list invariant with recency order
`order`, `get` (and `get_mut`) of a present key returns the stored value and
moves the key to the front: `len` and `capacity` are unchanged, every stored
value is unchanged, and the order produced by `iter()` changes from `order` to
`k :: order.erase k` — every other key's relative order is preserved. -/
theorem C6_get_moves_key_to_front {c : LRUCache T} {order : List Nat} {k : Nat}
    (hc : Consistent c order) (hk : k ∈ order) :
    ∃ (c' : LRUCache T) (v : T) (lpre lpost : List (Nat × T)),
      valAt c k = some v ∧
      c.get k = some (c', some v) ∧
      c.get_mut k = some (c', some v) ∧
      Consistent c' (k :: order.erase k) ∧
      c'.entries.length = c.entries.length ∧
      c'.capacity = c.capacity ∧
      (∀ j, valAt c' j = valAt c j) ∧
      runIter c c.iter (order.length + 1) = .finished lpre ∧
      lpre.map Prod.fst = order ∧
      runIter c' c'.iter (order.length + 1) = .finished lpost ∧
      lpost.map Prod.fst = k :: order.erase k := by
  obtain ⟨c', htouch, hcons', hcap', hlen', hval'⟩ := touch_consistent hc hk
  have hkkeys : k ∈ keysOf c := hc.1.mem_iff.2 hk
  have hcont : mapContains c.entries k = true := (mapContains_iff _ _).2 hkkeys
  obtain ⟨ek, hek⟩ := Option.isSome_iff_exists.1 ((mapLookup_isSome_iff _ _).2 hkkeys)
  have hvk : valAt c k = some ek.val := by
    unfold valAt
    rw [hek]
    rfl
  have hvk' : valAt c' k = some ek.val := (hval' k).trans hvk
  obtain ⟨lpre, hpre, hprekeys, -, -⟩ := runIter_finished hc
  obtain ⟨lpost, hpost, hpostkeys, -, -⟩ := runIter_finished hcons'
  have h1 : (order.erase k).length = order.length - 1 := List.length_erase_of_mem hk
  have h2 : 1 ≤ order.length := List.length_pos.2 (List.ne_nil_of_mem hk)
  have hlenerase : (k :: order.erase k).length + 1 = order.length + 1 := by
    simp only [List.length_cons]
    omega
  rw [hlenerase] at hpost
  have hif : (if mapContains c.entries k then c.touch_index k else some c) =
      c.touch_index k := if_pos hcont
  have hget : c.get k = some (c', some ek.val) := by
    unfold LRUCache.get
    rw [hif, htouch]
    show some (c', valAt c' k) = some (c', some ek.val)
    rw [hvk']
  have hgetmut : c.get_mut k = some (c', some ek.val) := by
    unfold LRUCache.get_mut
    rw [hif, htouch]
    show some (c', valAt c' k) = some (c', some ek.val)
    rw [hvk']
  exact ⟨c', ek.val, lpre, lpost, hvk, hget, hgetmut, hcons', hlen', hcap', hval',
    hpre, hprekeys, hpost, hpostkeys⟩

/-- Witness for C6: touching key 1 in the capacity-5 cache `cacheW`
(recency order `[2,1]`) moves it to the front. -/
theorem C6_get_moves_key_to_front_witness :
    ∃ (c' : LRUCache Nat) (v : Nat) (lpre lpost : List (Nat × Nat)),
      valAt cacheW 1 = some v ∧
      cacheW.get 1 = some (c', some v) ∧
      cacheW.get_mut 1 = some (c', some v) ∧
      Consistent c' (1 :: ([2, 1] : List Nat).erase 1) ∧
      c'.entries.length = cacheW.entries.length ∧
      c'.capacity = cacheW.capacity ∧
      (∀ j, valAt c' j = valAt cacheW j) ∧
      runIter cacheW cacheW.iter (([2, 1] : List Nat).length + 1) = .finished lpre ∧
      lpre.map Prod.fst = [2, 1] ∧
      runIter c' c'.iter (([2, 1] : List Nat).length + 1) = .finished lpost ∧
      lpost.map Prod.fst = 1 :: ([2, 1] : List Nat).erase 1 :=
  C6_get_moves_key_to_front (by decide) (by decide)

/-- C9: `new(0)` yields the empty capacity-0 cache; on it (the only reachable
capacity-0 state) every `insert` aborts fatally — the internal
`remove_lru().expect(..)` fires because `remove_lru` on the empty store returns
`None` — so no insert into a capacity-0 cache ever succeeds.  Conversely, on
any cache satisfying the recency-list invariant with `capacity ≥ 1`, `insert`
never hits any of its internal `expect`s. -/
theorem C9_cap0_insert_aborts_cap_pos_safe :
    ((LRUCache.new 0 : Option (LRUCache Nat)) = some ⟨[], 0, 0, 0⟩) ∧
    (∀ (T' : Type) (c : LRUCache T') (k : Nat) (v : T'),
      c.capacity = 0 → c.entries = [] → c.insert k v = none) ∧
    (∀ (T' : Type) (c : LRUCache T') (order : List Nat) (k : Nat) (v : T'),
      Consistent c order → 1 ≤ c.capacity → (c.insert k v).isSome = true) := by
  refine ⟨rfl, ?_, ?_⟩
  · intro T' c k v hcap hent
    exact insert_cap0 hcap hent k v
  · intro T' c order k v hc hcap
    exact insert_isSome hc hcap k v

/-- Witness for C9: insert into the capacity-0 cache aborts; insert into the
well-formed capacity-5 cache `cacheW` completes. -/
theorem C9_cap0_insert_aborts_cap_pos_safe_witness :
    emptyCap0.insert 5 7 = none ∧ (cacheW.insert 9 9).isSome = true :=
  ⟨C9_cap0_insert_aborts_cap_pos_safe.2.1 Nat emptyCap0 5 7 (by decide) (by decide),
   C9_cap0_insert_aborts_cap_pos_safe.2.2 Nat cacheW [2, 1] 9 9 (by decide) (by decide)⟩

end Elaru
